import Mathlib

/-!
Shallow embedding of the kuato session parser and search library
(src/shared/parser.ts, src/shared/types.ts, src/file-based/search-lib.ts).

A raw transcript line is modelled by its JSON.parse outcome: `none` when the
line fails to parse, `some r` when it parses to a record.  Records carry the
fields that the parser reads; JavaScript's dynamically-typed `version` field
is split into a numeric view (`versionNum`, used by the Pi format check
`parsed.version === 3`) and a string view (`versionStr`, used as the Claude
record's version label) since a given JSON value populates exactly one of
them.  Timestamps are modelled as integers (millisecond clock values, the
image of `Date.getTime`); `Date` comparison in the source is value
comparison.  JavaScript `Set` insertion order is modelled by append-if-absent
lists, and `Record<string, T>` objects by association lists updated in place.
-/

namespace Kuato

/-- Marker character used to build string literals containing an apostrophe. -/
def aposChar : Char := Char.ofNat 39

/-- JavaScript `String.prototype.toLowerCase`, restricted to ASCII case
mapping as used by the queries and names in this code base. -/
def jsToLower (s : String) : String := ⟨s.data.map Char.toLower⟩

/-- Substring containment on character lists: `needle` occurs contiguously in
`hay`.  Models `String.prototype.includes`. -/
def hasSubstr (hay needle : List Char) : Bool :=
  needle.isPrefixOf hay ||
    match hay with
    | [] => false
    | _ :: t => hasSubstr t needle

/-- JavaScript `hay.includes(needle)`. -/
def jsIncludes (hay needle : String) : Bool := hasSubstr hay.data needle.data

/-- Truthiness of a JavaScript string-or-undefined value: present and
non-empty. -/
def truthyStr (s : Option String) : Bool :=
  match s with
  | some v => v != ""
  | none => false

/-- JavaScript `a || b` for string-or-undefined `a` and string default `b`. -/
def jsOrStr (a : Option String) (b : String) : String :=
  match a with
  | some v => if v != "" then v else b
  | none => b

/-- JavaScript `a || b` where both operands are string-or-undefined. -/
def jsOrOptStr (a b : Option String) : Option String :=
  if truthyStr a then a else b

/-- Truthiness of `s.trim()` in the guard
`typeof userMsg.content === 'string' && userMsg.content.trim()`: the string
has at least one non-whitespace character. -/
def strNonBlank (s : String) : Bool := s.data.any (fun c => !c.isWhitespace)

/-- JavaScript `Set.prototype.add`: append if absent, keeping insertion
order (`Array.from` of a `Set` enumerates in insertion order). -/
def addSet (xs : List String) (x : String) : List String :=
  if xs.contains x then xs else xs ++ [x]

/-- Splitter for `query.split(/\s+/).filter(Boolean)`: maximal runs of
non-whitespace characters, with `acc` holding the current word reversed. -/
def wordsAux : List Char → List Char → List (List Char)
  | [], acc => if acc.isEmpty then [] else [acc.reverse]
  | c :: rest, acc =>
    if c.isWhitespace then
      if acc.isEmpty then wordsAux rest [] else acc.reverse :: wordsAux rest []
    else wordsAux rest (c :: acc)

/-- JavaScript `s.split(/\s+/).filter(Boolean)`. -/
def jsSplitWs (s : String) : List String :=
  (wordsAux s.data []).map (fun w => ⟨w⟩)

/-- Nested JSON value appearing inside a tool invocation's argument object
(the `Record<string, unknown>` traversed by `extractFilePaths`). -/
inductive JVal where
  | jstr (s : String)
  | jnum (n : Int)
  | jbool (b : Bool)
  | jnull
  | jarr (elems : List JVal)
  | jobj (fields : List (String × JVal))

/-- The fixed allow-list of file-path parameter names in
`extractFilePaths`. -/
def pathKeys : List String := ["file_path", "path", "file", "filename", "filePath"]

/-- The value "looks like a path": `value.includes('/') ||
value.includes('\\')`. -/
def hasPathSep (s : String) : Bool := s.data.contains '/' || s.data.contains '\\'

mutual
/-- One iteration of the `extractFilePaths` entry loop (src/shared/parser.ts
lines 235-251): a string value under an allow-listed key containing a path
separator is added to the set, then recursion descends into the value
exactly when it is a non-array object. -/
def extractEntry (key : String) (value : JVal) (files : List String) : List String :=
  let files1 :=
    if pathKeys.contains key then
      match value with
      | JVal.jstr s => if hasPathSep s then addSet files s else files
      | _ => files
    else files
  match value with
  | JVal.jobj inner => extractFilePaths inner files1
  | _ => files1

/-- Embedding of `extractFilePaths` (src/shared/parser.ts lines 231-252):
iterate the argument object's entries in order, processing each through
`extractEntry`. -/
def extractFilePaths (fields : List (String × JVal)) (files : List String) :
    List String :=
  match fields with
  | [] => files
  | (key, value) :: rest => extractFilePaths rest (extractEntry key value files)
end

/-- Token usage object. A JavaScript usage value carries either the Claude
field names (`input_tokens`, ...) or the Pi field names (`input`, ...);
reading an absent field yields `undefined`, guarded by `|| 0` in the source,
so every field is optional here and both views coexist on one structure. -/
structure Usage where
  input_tokens : Option Int := none
  output_tokens : Option Int := none
  cache_creation_input_tokens : Option Int := none
  cache_read_input_tokens : Option Int := none
  input : Option Int := none
  output : Option Int := none
  cacheRead : Option Int := none
  cacheWrite : Option Int := none

/-- A content block of an assistant turn (Claude `ContentBlock` or Pi
`PiContentBlock`); `input` is the Claude `tool_use` argument object,
`arguments` the Pi `toolCall` argument object. -/
structure CBlock where
  btype : String
  text : Option String := none
  name : Option String := none
  input : Option (List (String × JVal)) := none
  arguments : Option (List (String × JVal)) := none

/-- The `content` field of a message: a JSON string, a JSON array of blocks,
or something else / absent. -/
inductive MsgContent where
  | cstr (s : String)
  | cblocks (bs : List CBlock)
  | cnone

/-- The `message` sub-object of a record. -/
structure RawMessage where
  role : String
  content : MsgContent := MsgContent.cnone
  model : Option String := none
  usage : Option Usage := none

/-- One successfully JSON-parsed transcript line, restricted to the fields
the parser reads. -/
structure RawRecord where
  rtype : String
  timestamp : Int := 0
  sessionId : Option String := none
  gitBranch : Option String := none
  cwd : Option String := none
  versionNum : Option Int := none
  versionStr : Option String := none
  message : Option RawMessage := none
  modelId : Option String := none
  model : Option String := none
  usage : Option Usage := none
  toolName : Option String := none
  id : Option String := none

/-- A raw transcript line, abstracted by its JSON.parse outcome: `none` when
`JSON.parse` throws (a malformed line), `some r` otherwise. -/
def Line : Type := Option RawRecord

/-- Per-model token counters (the values of the `modelTokens` record). -/
structure MT where
  input : Int := 0
  output : Int := 0
  cacheCreation : Int := 0
  cacheRead : Int := 0
deriving DecidableEq

/-- The canonical session record (`ParsedSession` in src/shared/types.ts). -/
structure ParsedSession where
  id : String
  startedAt : Int
  endedAt : Int
  gitBranch : String
  cwd : String
  version : String
  messageCount : Nat
  inputTokens : Int
  outputTokens : Int
  cacheCreationTokens : Int
  cacheReadTokens : Int
  userMessages : List String
  toolsUsed : List String
  filesFromToolCalls : List String
  modelsUsed : List String
  modelTokens : List (String × MT)
deriving DecidableEq

/-- Property lookup in the `modelTokens` record object. -/
def getMT : List (String × MT) → String → Option MT
  | [], _ => none
  | (k, v) :: rest, key => if k == key then some v else getMT rest key

/-- Property assignment in the `modelTokens` record object: overwrite the
existing entry in place, or append a new one. -/
def setMT : List (String × MT) → String → MT → List (String × MT)
  | [], key, v => [(key, v)]
  | (k, w) :: rest, key, v =>
    if k == key then (k, v) :: rest else (k, w) :: setMT rest key v

/-- Accumulator threaded through a normalizer's message loop.  `err` records
that the loop body would have thrown a TypeError in JavaScript (a
conversational Claude record whose `message` field is absent); the thrown
exception is caught at the `parseSessionFile` boundary, which this embedding
models by discarding the whole result. -/
structure Acc where
  userMessages : List String := []
  toolsUsed : List String := []
  filesFromToolCalls : List String := []
  modelsUsed : List String := []
  inputTokens : Int := 0
  outputTokens : Int := 0
  cacheCreationTokens : Int := 0
  cacheReadTokens : Int := 0
  modelTokens : List (String × MT) := []
  err : Bool := false

/-- Embedding of `extractFromContentBlock` (parser.ts lines 213-226) over the
pair of accumulated sets. -/
def extractFromContentBlock (b : CBlock) (tools files : List String) :
    List String × List String :=
  if b.btype == "tool_use" && truthyStr b.name then
    let tools1 := addSet tools (b.name.getD "")
    match b.input with
    | some inp => (tools1, extractFilePaths inp files)
    | none => (tools1, files)
  else (tools, files)

/-- Model bookkeeping of the Claude assistant branch (parser.ts lines
140-152): record the model and initialize its per-model bucket on first
sight. -/
def trackModelClaude (acc : Acc) (model : Option String) : Acc :=
  if truthyStr model then
    let mo := model.getD ""
    let acc1 := { acc with modelsUsed := addSet acc.modelsUsed mo }
    match getMT acc1.modelTokens mo with
    | some _ => acc1
    | none => { acc1 with modelTokens := setMT acc1.modelTokens mo ({} : MT) }
  else acc

/-- Usage accumulation of the Claude assistant branch (parser.ts lines
154-171). -/
def addUsageClaude (acc : Acc) (model : Option String) (usage : Option Usage) : Acc :=
  match usage with
  | none => acc
  | some u =>
    let acc1 := { acc with
      inputTokens := acc.inputTokens + u.input_tokens.getD 0
      outputTokens := acc.outputTokens + u.output_tokens.getD 0
      cacheCreationTokens := acc.cacheCreationTokens + u.cache_creation_input_tokens.getD 0
      cacheReadTokens := acc.cacheReadTokens + u.cache_read_input_tokens.getD 0 }
    if truthyStr model then
      let mo := model.getD ""
      match getMT acc1.modelTokens mo with
      | some mt =>
        let mtNew : MT :=
          { input := mt.input + u.input_tokens.getD 0
            output := mt.output + u.output_tokens.getD 0
            cacheCreation := mt.cacheCreation + u.cache_creation_input_tokens.getD 0
            cacheRead := mt.cacheRead + u.cache_read_input_tokens.getD 0 }
        { acc1 with modelTokens := setMT acc1.modelTokens mo mtNew }
      | none => acc1
    else acc1

/-- Body of the Claude normalizer's message loop (parser.ts lines 129-180). -/
def stepClaude (acc : Acc) (msg : RawRecord) : Acc :=
  if msg.rtype == "user" then
    match msg.message with
    | none => { acc with err := true }
    | some m =>
      match m.content with
      | MsgContent.cstr s =>
        if strNonBlank s then { acc with userMessages := acc.userMessages ++ [s] }
        else acc
      | _ => acc
  else if msg.rtype == "assistant" then
    match msg.message with
    | none => { acc with err := true }
    | some m =>
      let acc1 := trackModelClaude acc m.model
      let acc2 := addUsageClaude acc1 m.model m.usage
      match m.content with
      | MsgContent.cblocks bs =>
        let p := bs.foldl
          (fun (p : List String × List String) b =>
            extractFromContentBlock b p.1 p.2)
          (acc2.toolsUsed, acc2.filesFromToolCalls)
        { acc2 with toolsUsed := p.1, filesFromToolCalls := p.2 }
      | _ => acc2
  else acc

/-- A Claude-dialect conversational record: `parsed.type` is `user` or
`assistant`. -/
def isConvClaude (r : RawRecord) : Bool :=
  r.rtype == "user" || r.rtype == "assistant"

/-- The Claude normalizer's `messages` array: lines that JSON-parse and are
conversational, in order. -/
def claudeConv (lines : List Line) : List RawRecord :=
  (lines.filterMap id).filter isConvClaude

/-- The session-identity regex `([a-f0-9-]{36})\.jsonl$`: the path ends in
`.jsonl` preceded by exactly 36 characters drawn from `[a-f0-9-]` (returns
the captured 36-character group). -/
def matchSessionId (path : String) : Option String :=
  let rcs := path.data.reverse
  if (String.data "lnosj.").isPrefixOf rcs then
    let idc := (rcs.drop 6).take 36
    if idc.length == 36 && idc.all (fun c => c.isDigit || ('a' ≤ c && c ≤ 'f') || c == '-')
    then some ⟨idc.reverse⟩
    else none
  else none

/-- The accumulator resulting from the Claude message loop. -/
def claudeAccOf (messages : List RawRecord) : Acc :=
  messages.foldl stepClaude {}

/-- Core of `parseClaudeSessionContent` (parser.ts lines 86-208), over the
already-filtered `messages` array. -/
def parseClaudeFromMessages (msgs : List RawRecord) (sessionId : Option String) :
    Option ParsedSession :=
  match h : msgs with
  | [] => none
  | first :: rest =>
    if (claudeAccOf (first :: rest)).err then none
    else
      some {
        id := jsOrStr (sessionId.bind matchSessionId)
          (jsOrStr first.sessionId "unknown")
        startedAt := first.timestamp
        endedAt := ((first :: rest).getLast (by simp)).timestamp
        gitBranch := jsOrStr first.gitBranch "unknown"
        cwd := jsOrStr first.cwd ""
        version := jsOrStr first.versionStr ""
        messageCount := (first :: rest).length
        inputTokens := (claudeAccOf (first :: rest)).inputTokens
        outputTokens := (claudeAccOf (first :: rest)).outputTokens
        cacheCreationTokens := (claudeAccOf (first :: rest)).cacheCreationTokens
        cacheReadTokens := (claudeAccOf (first :: rest)).cacheReadTokens
        userMessages := (claudeAccOf (first :: rest)).userMessages
        toolsUsed := (claudeAccOf (first :: rest)).toolsUsed
        filesFromToolCalls := (claudeAccOf (first :: rest)).filesFromToolCalls
        modelsUsed := (claudeAccOf (first :: rest)).modelsUsed
        modelTokens := (claudeAccOf (first :: rest)).modelTokens }

/-- Core of `parseClaudeSessionContent`: filter to conversational records,
then normalize them. -/
def parseClaudeSessionLines (lines : List Line) (sessionId : Option String) :
    Option ParsedSession :=
  parseClaudeFromMessages (claudeConv lines) sessionId

/-- Embedding of `extractFromPiContentBlock` (parser.ts lines 405-418). -/
def extractFromPiContentBlock (b : CBlock) (tools files : List String) :
    List String × List String :=
  if b.btype == "toolCall" && truthyStr b.name then
    let tools1 := addSet tools (b.name.getD "")
    match b.arguments with
    | some args => (tools1, extractFilePaths args files)
    | none => (tools1, files)
  else (tools, files)

/-- Model bookkeeping of the Pi assistant branch (parser.ts lines 329-340). -/
def trackModelPi (acc : Acc) (model : Option String) : Acc :=
  if truthyStr model then
    let mo := model.getD ""
    let acc1 := { acc with modelsUsed := addSet acc.modelsUsed mo }
    match getMT acc1.modelTokens mo with
    | some _ => acc1
    | none => { acc1 with modelTokens := setMT acc1.modelTokens mo ({} : MT) }
  else acc

/-- Usage accumulation of the Pi assistant branch (parser.ts lines 342-354):
Pi names the cache-creation counter `cacheWrite`. -/
def addUsagePi (acc : Acc) (model : Option String) (usage : Option Usage) : Acc :=
  match usage with
  | none => acc
  | some u =>
    let acc1 := { acc with
      inputTokens := acc.inputTokens + u.input.getD 0
      outputTokens := acc.outputTokens + u.output.getD 0
      cacheReadTokens := acc.cacheReadTokens + u.cacheRead.getD 0
      cacheCreationTokens := acc.cacheCreationTokens + u.cacheWrite.getD 0 }
    if truthyStr model then
      let mo := model.getD ""
      match getMT acc1.modelTokens mo with
      | some mt =>
        let mtNew : MT :=
          { input := mt.input + u.input.getD 0
            output := mt.output + u.output.getD 0
            cacheRead := mt.cacheRead + u.cacheRead.getD 0
            cacheCreation := mt.cacheCreation + u.cacheWrite.getD 0 }
        { acc1 with modelTokens := setMT acc1.modelTokens mo mtNew }
      | none => acc1
    else acc1

/-- Body of the Pi normalizer's conversation loop (parser.ts lines 313-363).
Both the model and the usage are read from the top-level record first, then
from the message (`msg.model || msg.message.model`). -/
def stepPi (acc : Acc) (msg : RawRecord) : Acc :=
  match msg.message with
  | none => acc
  | some m =>
    if m.role == "user" then
      match m.content with
      | MsgContent.cblocks bs =>
        let texts := bs.foldl
          (fun (ts : List String) b =>
            if b.btype == "text" && truthyStr b.text then ts ++ [b.text.getD ""]
            else ts)
          []
        { acc with userMessages := acc.userMessages ++ texts }
      | _ => acc
    else if m.role == "assistant" then
      let model := jsOrOptStr msg.model m.model
      let usage := if msg.usage.isSome then msg.usage else m.usage
      let acc1 := trackModelPi acc model
      let acc2 := addUsagePi acc1 model usage
      match m.content with
      | MsgContent.cblocks bs =>
        let p := bs.foldl
          (fun (p : List String × List String) b =>
            extractFromPiContentBlock b p.1 p.2)
          (acc2.toolsUsed, acc2.filesFromToolCalls)
        { acc2 with toolsUsed := p.1, filesFromToolCalls := p.2 }
      | _ => acc2
    else acc

/-- A Pi-dialect conversational record: `m.type === 'message' && m.message &&
(m.message.role === 'user' || m.message.role === 'assistant')`. -/
def isConvPi (r : RawRecord) : Bool :=
  r.rtype == "message" &&
    (match r.message with
     | some m => m.role == "user" || m.role == "assistant"
     | none => false)

/-- The Pi normalizer's `conversationMessages` array. -/
def piConv (lines : List Line) : List RawRecord :=
  (lines.filterMap id).filter isConvPi

/-- The models recorded from `model_change` control records before the
conversation loop (parser.ts lines 304-310). -/
def piModelsInit (allMessages : List RawRecord) : List String :=
  (allMessages.filter (fun m => m.rtype == "model_change")).foldl
    (fun ms c => if truthyStr c.modelId then addSet ms (c.modelId.getD "") else ms)
    []

/-- The accumulator resulting from the Pi conversation loop, started from
the model-change models. -/
def piAccOf (allMessages : List RawRecord) : Acc :=
  (allMessages.filter isConvPi).foldl stepPi { modelsUsed := piModelsInit allMessages }

/-- The tool set after also mining `toolResult` records (parser.ts lines
365-371). -/
def piToolsFinal (allMessages : List RawRecord) : List String :=
  (allMessages.filter
    (fun m => m.rtype == "message" &&
      (match m.message with
       | some mm => mm.role == "toolResult"
       | none => false))).foldl
    (fun ts r => if truthyStr r.toolName then addSet ts (r.toolName.getD "") else ts)
    (piAccOf allMessages).toolsUsed

/-- Core of `parsePiSessionContent` (parser.ts lines 257-400), over the
already-parsed `allMessages` array. -/
def parsePiFromMessages (allMessages : List RawRecord) (sessionId : Option String) :
    Option ParsedSession :=
  if allMessages.length == 0 then none
  else
    match allMessages.find? (fun m => m.rtype == "session"),
        h : allMessages.filter isConvPi with
    | some sm, first :: rest =>
      some {
        id := jsOrStr (sessionId.bind matchSessionId) (jsOrStr sm.id "unknown")
        startedAt := first.timestamp
        endedAt := ((first :: rest).getLast (by simp)).timestamp
        gitBranch := "unknown"
        cwd := jsOrStr sm.cwd ""
        version := jsOrStr (sm.versionNum.map (fun v => toString v)) ""
        messageCount := (first :: rest).length
        inputTokens := (piAccOf allMessages).inputTokens
        outputTokens := (piAccOf allMessages).outputTokens
        cacheCreationTokens := (piAccOf allMessages).cacheCreationTokens
        cacheReadTokens := (piAccOf allMessages).cacheReadTokens
        userMessages := (piAccOf allMessages).userMessages
        toolsUsed := piToolsFinal allMessages
        filesFromToolCalls := (piAccOf allMessages).filesFromToolCalls
        modelsUsed := (piAccOf allMessages).modelsUsed
        modelTokens := (piAccOf allMessages).modelTokens }
    | _, _ => none

/-- Parse Pi JSONL lines: JSON-parse each line, then normalize the parsed
records. -/
def parsePiSessionLines (lines : List Line) (sessionId : Option String) :
    Option ParsedSession :=
  parsePiFromMessages (lines.filterMap id) sessionId

/-- Embedding of `detectSessionFormat` (parser.ts lines 38-56), reading only
the first line. -/
def detectSessionFormat (firstLine : Line) : String :=
  match firstLine with
  | none => "unknown"
  | some r =>
    if r.rtype == "session" && r.versionNum == some 3 then "pi"
    else if r.rtype == "user" || r.rtype == "assistant" then "claude"
    else "unknown"

/-- The format of a whole (already-split) transcript: the detector applied to
its first line. -/
def transcriptFormat (lines : List Line) : String :=
  match lines with
  | [] => "unknown"
  | first :: _ => detectSessionFormat first

/-- Embedding of `parseSessionContent` (parser.ts lines 61-81) at the
`parseSessionFile` boundary, over already-split non-blank lines: dispatch on
the detected format; a TypeError escaping a normalizer is caught and
collapsed to `none`. -/
def parseSessionLines (lines : List Line) (sessionId : Option String) :
    Option ParsedSession :=
  match lines with
  | [] => none
  | first :: _ =>
    if detectSessionFormat first == "pi" then parsePiSessionLines lines sessionId
    else if detectSessionFormat first == "claude" then parseClaudeSessionLines lines sessionId
    else none

/-- Search options (`SearchOptions` in src/shared/types.ts).  `since`,
`until` and the clock are `Date` values modelled by their millisecond clock
value; `limit` is a result count (non-negative in every caller). -/
structure SearchOptions where
  query : Option String := none
  days : Option Int := none
  since : Option Int := none
  untilD : Option Int := none
  tools : Option (List String) := none
  filePattern : Option String := none
  limit : Option Nat := none
deriving DecidableEq

/-- A search result (`SearchResult` in src/shared/types.ts): the canonical
record spread into a new object plus `relevance`, the optional `matchedOn`
category list, and the transcript path. -/
structure SearchResult extends ParsedSession where
  relevance : Option Int := none
  matchedOn : Option (List String) := none
  transcriptPath : String
deriving DecidableEq

/-- One scoring pass of `scoreRelevance` (search-lib.ts lines 85-121): for
every item and every query term, test lower-cased substring containment,
adding `weight` per hit and recording `category` once. -/
def scorePass (items terms : List String) (weight : Int) (category : String)
    (start : Int × List String) : Int × List String :=
  items.foldl
    (fun acc item =>
      terms.foldl
        (fun (acc2 : Int × List String) term =>
          if jsIncludes (jsToLower item) term then
            (acc2.1 + weight, addSet acc2.2 category)
          else acc2)
        acc)
    start

/-- Embedding of `scoreRelevance` (search-lib.ts lines 76-124) together with
its local `matchedOn` array.  The source function returns only the score; the
`matchedOn` component is a local that is never returned (on the empty-query
early return it is never even created, rendered here as `[]`). -/
def scoreRelevanceFull (session : ParsedSession) (query : String) :
    Int × List String :=
  if query == "" then (1, [])
  else
    let terms := jsSplitWs (jsToLower query)
    let p1 := scorePass session.userMessages terms 10 "userMessages" (0, [])
    let p2 := scorePass session.toolsUsed terms 3 "toolsUsed" p1
    scorePass session.filesFromToolCalls terms 3 "filesFromToolCalls" p2

/-- The value `scoreRelevance` actually returns: the score alone. -/
def scoreRelevance (session : ParsedSession) (query : String) : Int :=
  (scoreRelevanceFull session query).1

/-- Embedding of `matchesFilters` (search-lib.ts lines 129-158).  `now` is
the `new Date()` read at evaluation time.  JavaScript truthiness: a number is
truthy iff non-zero, a `Date` or array object is truthy whenever present, a
string is truthy iff non-empty. -/
def matchesFilters (now : Int) (session : ParsedSession) (options : SearchOptions) :
    Bool :=
  let since :=
    if (match options.days with | some d => d != 0 | none => false)
        && options.since.isNone
    then some (now - options.days.getD 0 * (24 * 60 * 60 * 1000))
    else options.since
  (match since with
   | some s => !(session.endedAt < s)
   | none => true) &&
  (match options.untilD with
   | some u => !(session.endedAt > u)
   | none => true) &&
  (match options.tools with
   | some tools =>
     if tools.length > 0 then
       tools.any (fun tool =>
         session.toolsUsed.any (fun t =>
           jsIncludes (jsToLower t) (jsToLower tool)))
     else true
   | none => true) &&
  (match options.filePattern with
   | some pat =>
     if pat != "" then
       session.filesFromToolCalls.any (fun f => jsIncludes (jsToLower f) (jsToLower pat))
     else true
   | none => true)

/-- Embedding of `processSessionFiles` (search-lib.ts lines 229-265) with
file reading abstracted: each candidate file is a path paired with its
`parseSessionFile` outcome.  The constructed result spreads the session and
sets `relevance` and `transcriptPath`; `matchedOn` is never assigned. -/
def processSessionFiles (files : List (String × Option ParsedSession))
    (now : Int) (options : SearchOptions) : List SearchResult :=
  files.foldl
    (fun results entry =>
      match entry.2 with
      | none => results
      | some session =>
        if session.userMessages.length == 0 then results
        else if !(matchesFilters now session options) then results
        else
          let relevance :=
            if truthyStr options.query then scoreRelevance session (options.query.getD "")
            else 1
          if truthyStr options.query && relevance == 0 then results
          else results ++ [{ toParsedSession := session
                             relevance := some relevance
                             matchedOn := none
                             transcriptPath := entry.1 }])
    []

/-- The sort comparator of `searchSessions` (search-lib.ts lines 214-219),
returning a negative, zero, or positive number. -/
def compareResults (a b : SearchResult) : Int :=
  if a.relevance != b.relevance then b.relevance.getD 0 - a.relevance.getD 0
  else b.endedAt - a.endedAt

/-- `a` may be placed at or before `b` by the comparator: `compare(a,b) <=
0`.  `Array.prototype.sort` is stable and produces an order whose adjacent
pairs satisfy this relation. -/
def resultLE (a b : SearchResult) : Bool := compareResults a b ≤ 0

/-- The sorted flat result list of `searchSessions` before truncation,
modelled by the stable `List.mergeSort` (any stable sort realises
`Array.prototype.sort` for a consistent comparator). -/
def sortResults (results : List SearchResult) : List SearchResult :=
  results.mergeSort resultLE

/-- The effective result limit: `options.limit || 20`. -/
def jsLimit (limit : Option Nat) : Nat :=
  match limit with
  | some l => if l != 0 then l else 20
  | none => 20

/-- The accumulate-sort-truncate tail of `searchSessions` (search-lib.ts
lines 213-223), over the flat list of surviving candidates. -/
def sortAndLimit (results : List SearchResult) (options : SearchOptions) :
    List SearchResult :=
  (sortResults results).take (jsLimit options.limit)

/-! ### Concrete fixtures used by the claim theorems -/

/-- A minimal canonical session record to build concrete instances from. -/
def baseSession : ParsedSession :=
  { id := "s", startedAt := 0, endedAt := 0, gitBranch := "unknown", cwd := ""
    version := "", messageCount := 1, inputTokens := 0, outputTokens := 0
    cacheCreationTokens := 0, cacheReadTokens := 0
    userMessages := ["hello"], toolsUsed := [], filesFromToolCalls := []
    modelsUsed := [], modelTokens := [] }

/-- A transcript line holding a Claude user turn with string content. -/
def userLine (ts : Int) (txt : String) : Line :=
  some { rtype := "user", timestamp := ts
         message := some { role := "user", content := MsgContent.cstr txt } }

/-- A transcript line holding a Claude assistant turn with the given model
and an input-token count. -/
def assistantLine (ts : Int) (model : Option String) (inTok : Int) : Line :=
  some { rtype := "assistant", timestamp := ts
         message := some { role := "assistant", content := MsgContent.cnone
                           model := model
                           usage := some { input_tokens := some inTok
                                           output_tokens := some 2 } } }

/-- A Pi session-initiation control line (`{"type":"session","version":3}`). -/
def piSessionLine : Line :=
  some { rtype := "session", versionNum := some 3, id := some "pid"
         cwd := some "/w", timestamp := 0 }

/-- A Pi user turn whose content is a single text block. -/
def piUserLine (ts : Int) (txt : String) : Line :=
  some { rtype := "message", timestamp := ts
         message := some { role := "user"
                           content := MsgContent.cblocks [{ btype := "text", text := some txt }] } }

/-- A Pi assistant turn with top-level model and usage. -/
def piAssistantLine (ts : Int) (model : Option String) (inTok : Int) : Line :=
  some { rtype := "message", timestamp := ts
         model := model
         usage := some { input := some inTok, output := some 1 }
         message := some { role := "assistant", content := MsgContent.cnone } }

/-! ### C10 — a day-count of zero imposes no date lower bound -/

/-- Search options with a zero day-count, an until bound, and a tool filter,
used to witness C10 on a non-trivial option set. -/
def c10opts : SearchOptions :=
  { days := some 0, untilD := some 1000, tools := some ["Edit"] }

/-- A session that ended in the distant past and uses the Edit tool. -/
def c10session : ParsedSession :=
  { baseSession with endedAt := -999999999999, toolsUsed := ["Edit"] }

/-- C10: with a day-count of 0 and no explicit since bound, `matchesFilters`
derives no date lower bound: it behaves exactly as with an absent day-count,
and with no other constraints every session passes regardless of how far in
the past its `endedAt` lies. -/
theorem c10_zeroDayCount (now : Int) (s : ParsedSession) (opts : SearchOptions)
    (hd : opts.days = some 0) (hs : opts.since = none) :
    matchesFilters now s opts = matchesFilters now s { opts with days := none } ∧
    matchesFilters now s { days := some 0 } = true := by
  constructor
  · simp [matchesFilters, hd, hs]
  · simp [matchesFilters]

/-- Witness for C10 at a concrete option set and a session whose `endedAt`
is far in the past. -/
theorem c10_zeroDayCount_witness :
    c10opts.days = some 0 ∧ c10opts.since = none ∧
    (matchesFilters 0 c10session c10opts
        = matchesFilters 0 c10session { c10opts with days := none } ∧
      matchesFilters 0 c10session { days := some 0 } = true) :=
  ⟨rfl, rfl, c10_zeroDayCount 0 c10session c10opts rfl rfl⟩

/-! ### C8 — tool filter: case-insensitive substring, any-match semantics -/

/-- A session whose tool set is exactly `{"Edit"}`. -/
def editOnlySession : ParsedSession := { baseSession with toolsUsed := ["Edit"] }

/-- C8: with a non-empty requested tool list, the filter passes iff some
requested tool name is a case-insensitive substring of some session tool
name; in particular `"Bash"` excludes an Edit-only session and `"Ed"`
includes it. -/
theorem c8_toolFilter (now : Int) (s : ParsedSession) (tools : List String)
    (h : tools ≠ []) :
    (matchesFilters now s { tools := some tools } = true ↔
      ∃ tool ∈ tools, ∃ t ∈ s.toolsUsed,
        jsIncludes (jsToLower t) (jsToLower tool) = true) ∧
    matchesFilters 0 editOnlySession { tools := some ["Bash"] } = false ∧
    matchesFilters 0 editOnlySession { tools := some ["Ed"] } = true := by
  refine ⟨?_, by decide, by decide⟩
  have hlen : 0 < tools.length := List.length_pos.mpr h
  simp [matchesFilters, hlen, List.any_eq_true]

/-- Witness for C8 at the concrete Edit-only session and tool list
`["Bash"]`. -/
theorem c8_toolFilter_witness :
    (["Bash"] ≠ ([] : List String)) ∧
    ((matchesFilters 0 editOnlySession { tools := some ["Bash"] } = true ↔
      ∃ tool ∈ ["Bash"], ∃ t ∈ editOnlySession.toolsUsed,
        jsIncludes (jsToLower t) (jsToLower tool) = true) ∧
     matchesFilters 0 editOnlySession { tools := some ["Bash"] } = false ∧
     matchesFilters 0 editOnlySession { tools := some ["Ed"] } = true) :=
  ⟨by decide, c8_toolFilter 0 editOnlySession ["Bash"] (by decide)⟩

/-! ### C4 — transcripts with no conversational turn parse to null -/

/-- A line is a conversational turn of the given dialect. -/
def isConvLine (fmt : String) (l : Line) : Bool :=
  match l with
  | none => false
  | some r =>
    if fmt == "claude" then isConvClaude r
    else if fmt == "pi" then isConvPi r
    else false

/-- The Pi normalizer rejects a transcript with no conversational message. -/
theorem parsePi_of_piConv_nil (lines : List Line) (sid : Option String)
    (h : piConv lines = []) : parsePiSessionLines lines sid = none := by
  have h' : (lines.filterMap id).filter isConvPi = [] := h
  unfold parsePiSessionLines parsePiFromMessages
  split
  · rfl
  · split
    · next heq => rw [h'] at heq; cases heq
    · rfl

/-- The Claude normalizer rejects a transcript with no conversational
message. -/
theorem parseClaude_of_claudeConv_nil (lines : List Line) (sid : Option String)
    (h : claudeConv lines = []) : parseClaudeSessionLines lines sid = none := by
  unfold parseClaudeSessionLines parseClaudeFromMessages
  split
  · rfl
  · next heq => rw [h] at heq; cases heq

/-- C4: a transcript containing no conversational turn of its own detected
dialect (only control/metadata records, in either dialect, or an
unrecognized first line) parses to `none`, never to a record with empty
collections. -/
theorem c4_emptySessionNull (lines : List Line) (sid : Option String)
    (h : ∀ l ∈ lines, isConvLine (transcriptFormat lines) l = false) :
    parseSessionLines lines sid = none := by
  match hl : lines with
  | [] => rfl
  | first :: rest =>
    have hfmt : transcriptFormat (first :: rest) = detectSessionFormat first := rfl
    match first with
    | none =>
      simp [parseSessionLines, detectSessionFormat]
    | some r =>
      by_cases h1 : (r.rtype == "session" && r.versionNum == some 3) = true
      · have hdet : detectSessionFormat (some r) = "pi" := by
          simp [detectSessionFormat, h1]
        have hconv : piConv (some r :: rest) = [] := by
          apply List.filter_eq_nil_iff.mpr
          intro x hx
          rw [List.mem_filterMap] at hx
          obtain ⟨l, hl2, hid⟩ := hx
          have := h l hl2
          rw [hfmt, hdet] at this
          cases l with
          | none => cases hid
          | some r2 =>
            cases hid
            simpa [isConvLine] using this
        simp only [parseSessionLines, hdet]
        simpa using parsePi_of_piConv_nil (some r :: rest) sid hconv
      · by_cases h2 : (r.rtype == "user" || r.rtype == "assistant") = true
        · have hdet : detectSessionFormat (some r) = "claude" := by
            simp only [detectSessionFormat]
            rw [if_neg (by simpa using h1), if_pos h2]
          have hcontr := h (some r) (List.mem_cons_self _ _)
          rw [hfmt, hdet] at hcontr
          simp [isConvLine, isConvClaude] at hcontr
          simp [hcontr] at h2
        · have hdet : detectSessionFormat (some r) = "unknown" := by
            simp only [detectSessionFormat]
            rw [if_neg (by simpa using h1), if_neg (by simpa using h2)]
          simp [parseSessionLines, hdet]

/-- Witness for C4: a Pi transcript holding only the session-initiation
record and a model-change record parses to `none`. -/
theorem c4_emptySessionNull_witness :
    (∀ l ∈ [piSessionLine, some { rtype := "model_change", modelId := some "m" }],
      isConvLine
        (transcriptFormat [piSessionLine, some { rtype := "model_change", modelId := some "m" }])
        l = false) ∧
    parseSessionLines [piSessionLine, some { rtype := "model_change", modelId := some "m" }]
      none = none :=
  ⟨by decide,
   c4_emptySessionNull [piSessionLine, some { rtype := "model_change", modelId := some "m" }]
     none (by decide)⟩

/-! ### Inversion of the two normalizers on success -/

/-- What a successful Claude parse reveals: a non-empty conversational
stream, a clean loop (no TypeError), and the record's fields in terms of the
stream and its accumulator. -/
theorem parseClaude_inv (lines : List Line) (sid : Option String) (s : ParsedSession)
    (hp : parseClaudeSessionLines lines sid = some s) :
    ∃ (first : RawRecord) (rest : List RawRecord),
      claudeConv lines = first :: rest ∧
      (claudeAccOf (first :: rest)).err = false ∧
      s.startedAt = first.timestamp ∧
      s.endedAt = ((first :: rest).getLast (by simp)).timestamp ∧
      s.userMessages = (claudeAccOf (first :: rest)).userMessages ∧
      s.inputTokens = (claudeAccOf (first :: rest)).inputTokens ∧
      s.outputTokens = (claudeAccOf (first :: rest)).outputTokens ∧
      s.cacheCreationTokens = (claudeAccOf (first :: rest)).cacheCreationTokens ∧
      s.cacheReadTokens = (claudeAccOf (first :: rest)).cacheReadTokens ∧
      s.modelTokens = (claudeAccOf (first :: rest)).modelTokens := by
  unfold parseClaudeSessionLines parseClaudeFromMessages at hp
  split at hp
  · cases hp
  · next first rest heq =>
    split at hp
    · cases hp
    · next herr =>
      cases hp
      exact ⟨first, rest, heq, by simpa using herr, rfl, rfl, rfl, rfl, rfl, rfl, rfl, rfl⟩

/-- What a successful Pi parse reveals: a session-initiation record, a
non-empty conversational stream, and the record's fields in terms of the
stream and its accumulator. -/
theorem parsePi_inv (lines : List Line) (sid : Option String) (s : ParsedSession)
    (hp : parsePiSessionLines lines sid = some s) :
    ∃ (sm first : RawRecord) (rest : List RawRecord),
      (lines.filterMap id).find? (fun m => m.rtype == "session") = some sm ∧
      piConv lines = first :: rest ∧
      s.startedAt = first.timestamp ∧
      s.endedAt = ((first :: rest).getLast (by simp)).timestamp ∧
      s.userMessages = (piAccOf (lines.filterMap id)).userMessages ∧
      s.inputTokens = (piAccOf (lines.filterMap id)).inputTokens ∧
      s.outputTokens = (piAccOf (lines.filterMap id)).outputTokens ∧
      s.cacheCreationTokens = (piAccOf (lines.filterMap id)).cacheCreationTokens ∧
      s.cacheReadTokens = (piAccOf (lines.filterMap id)).cacheReadTokens ∧
      s.modelTokens = (piAccOf (lines.filterMap id)).modelTokens := by
  unfold parsePiSessionLines parsePiFromMessages at hp
  split at hp
  · cases hp
  · split at hp
    · next sm first rest hfind heq =>
      cases hp
      exact ⟨sm, first, rest, hfind, heq, rfl, rfl, rfl, rfl, rfl, rfl, rfl, rfl⟩
    · cases hp

/-! ### C9 — temporal bounds come from first/last conversational turn -/

/-- The conversational records of a transcript, in its own detected
dialect. -/
def convRecords (lines : List Line) : List RawRecord :=
  if transcriptFormat lines == "claude" then claudeConv lines
  else if transcriptFormat lines == "pi" then piConv lines
  else []

/-- In a list whose elements are pairwise `≤`-related in order, the head is
at most the last element. -/
theorem pairwise_le_head_getLast {l : List Int} (h : List.Pairwise (· ≤ ·) l)
    (hne : l ≠ []) : l.head hne ≤ l.getLast hne := by
  match l, hne with
  | [a], _ => simp [List.getLast]
  | a :: b :: t, _ =>
    have hst : (a :: b :: t).getLast (by simp) = (b :: t).getLast (by simp) :=
      List.getLast_cons _
    have hmem : (a :: b :: t).getLast (by simp) ∈ b :: t := by
      rw [hst]; exact List.getLast_mem _
    exact (List.pairwise_cons.mp h).1 _ hmem

/-- C9 (amended): when a transcript parses, `startedAt` and `endedAt` are the
timestamps of the first and last conversational turn (not the first and last
raw line), and whenever the conversational turns appear in non-decreasing
timestamp order, `startedAt ≤ endedAt`. -/
theorem c9_temporalBounds (lines : List Line) (sid : Option String) (s : ParsedSession)
    (hp : parseSessionLines lines sid = some s)
    (hsorted : List.Pairwise (· ≤ ·) ((convRecords lines).map RawRecord.timestamp)) :
    ((convRecords lines).map RawRecord.timestamp).head? = some s.startedAt ∧
    ((convRecords lines).map RawRecord.timestamp).getLast? = some s.endedAt ∧
    s.startedAt ≤ s.endedAt := by
  rcases lines with _ | ⟨first, rest⟩
  · cases hp
  · dsimp only [parseSessionLines] at hp
    by_cases hpi : (detectSessionFormat first == "pi") = true
    · rw [if_pos hpi] at hp
      have hfmt : transcriptFormat (first :: rest) = "pi" := by
        simpa [transcriptFormat] using hpi
      have hcr : convRecords (first :: rest) = piConv (first :: rest) := by
        simp [convRecords, hfmt]
      obtain ⟨sm, f, r, -, hconv, hst, hend, -⟩ := parsePi_inv _ _ _ hp
      rw [hcr, hconv]
      have hgl : ((f :: r).map RawRecord.timestamp).getLast (by simp)
          = ((f :: r).getLast (by simp)).timestamp := List.getLast_map _ _ _
      refine ⟨by simp [hst], ?_, ?_⟩
      · rw [List.getLast?_eq_getLast _ (by simp), hgl, hend]
      · rw [hcr, hconv] at hsorted
        have := pairwise_le_head_getLast hsorted (by simp)
        rw [hgl] at this
        simpa [hst, hend] using this
    · rw [if_neg hpi] at hp
      by_cases hcl : (detectSessionFormat first == "claude") = true
      · rw [if_pos hcl] at hp
        have hfmt : transcriptFormat (first :: rest) = "claude" := by
          simpa [transcriptFormat] using hcl
        have hcr : convRecords (first :: rest) = claudeConv (first :: rest) := by
          simp [convRecords, hfmt]
        obtain ⟨f, r, hconv, -, hst, hend, -⟩ := parseClaude_inv _ _ _ hp
        rw [hcr, hconv]
        have hgl : ((f :: r).map RawRecord.timestamp).getLast (by simp)
            = ((f :: r).getLast (by simp)).timestamp := List.getLast_map _ _ _
        refine ⟨by simp [hst], ?_, ?_⟩
        · rw [List.getLast?_eq_getLast _ (by simp), hgl, hend]
        · rw [hcr, hconv] at hsorted
          have := pairwise_le_head_getLast hsorted (by simp)
          rw [hgl] at this
          simpa [hst, hend] using this
      · rw [if_neg hcl] at hp
        cases hp

/-- Counterexample input for C9: a Claude transcript whose two user turns
carry decreasing timestamps. -/
def c9cexLines : List Line := [userLine 100 "hi", userLine 50 "yo"]

/-- Check that a session's temporal bounds are ordered. -/
def boundsOrdered (s : ParsedSession) : Bool := decide (s.startedAt ≤ s.endedAt)

/-- Counterexample for C9 as stated: a transcript whose conversational turns
are out of chronological order parses to a record with
`startedAt > endedAt`. -/
theorem c9_counterexample :
    (parseSessionLines c9cexLines none).map boundsOrdered = some false := by decide

/-- Witness lines for C9: a chronologically ordered Claude transcript. -/
def c9wLines : List Line := [userLine 50 "a", userLine 100 "b"]

/-- The session parsed from the C9 witness lines. -/
def c9wSession : ParsedSession := (parseSessionLines c9wLines none).getD baseSession

/-- Witness for C9 at a concrete ordered transcript. -/
theorem c9_temporalBounds_witness :
    parseSessionLines c9wLines none = some c9wSession ∧
    List.Pairwise (· ≤ ·) ((convRecords c9wLines).map RawRecord.timestamp) ∧
    (((convRecords c9wLines).map RawRecord.timestamp).head? = some c9wSession.startedAt ∧
     ((convRecords c9wLines).map RawRecord.timestamp).getLast? = some c9wSession.endedAt ∧
     c9wSession.startedAt ≤ c9wSession.endedAt) :=
  ⟨by decide, by decide, c9_temporalBounds c9wLines none c9wSession (by decide) (by decide)⟩

/-! ### C6 — extraction of user-message text -/

/-- `trackModelClaude` never touches `userMessages`. -/
theorem trackModelClaude_userMessages (acc : Acc) (model : Option String) :
    (trackModelClaude acc model).userMessages = acc.userMessages := by
  unfold trackModelClaude
  split
  · dsimp only
    split <;> rfl
  · rfl

/-- `addUsageClaude` never touches `userMessages`. -/
theorem addUsageClaude_userMessages (acc : Acc) (model : Option String)
    (usage : Option Usage) :
    (addUsageClaude acc model usage).userMessages = acc.userMessages := by
  unfold addUsageClaude
  split
  · rfl
  · dsimp only
    split
    · split <;> rfl
    · rfl

/-- One Claude loop step either leaves `userMessages` unchanged or appends a
single non-blank string. -/
theorem stepClaude_userMessages (acc : Acc) (msg : RawRecord) :
    (stepClaude acc msg).userMessages = acc.userMessages ∨
    ∃ t, strNonBlank t = true ∧
      (stepClaude acc msg).userMessages = acc.userMessages ++ [t] := by
  unfold stepClaude
  split
  · split
    · exact Or.inl rfl
    · split
      · split
        · next hsnb => exact Or.inr ⟨_, hsnb, rfl⟩
        · exact Or.inl rfl
      · exact Or.inl rfl
  · split
    · split
      · exact Or.inl rfl
      · refine Or.inl ?_
        repeat' split
        all_goals
          simp [trackModelClaude_userMessages, addUsageClaude_userMessages]
    · exact Or.inl rfl

/-- Every string in the `userMessages` of a Claude loop fold is non-blank,
provided the initial accumulator satisfies the same. -/
theorem claude_fold_userMessages (msgs : List RawRecord) (acc : Acc)
    (h : ∀ m ∈ acc.userMessages, strNonBlank m = true) :
    ∀ m ∈ (msgs.foldl stepClaude acc).userMessages, strNonBlank m = true := by
  induction msgs generalizing acc with
  | nil => exact h
  | cons x xs ih =>
    apply ih
    rcases stepClaude_userMessages acc x with heq | ⟨t, ht, heq⟩
    · rw [heq]; exact h
    · rw [heq]
      intro m hm
      rcases List.mem_append.mp hm with h1 | h2
      · exact h m h1
      · rw [List.mem_singleton.mp h2]; exact ht

/-- `trackModelPi` never touches `userMessages`. -/
theorem trackModelPi_userMessages (acc : Acc) (model : Option String) :
    (trackModelPi acc model).userMessages = acc.userMessages := by
  unfold trackModelPi
  split
  · dsimp only
    split <;> rfl
  · rfl

/-- `addUsagePi` never touches `userMessages`. -/
theorem addUsagePi_userMessages (acc : Acc) (model : Option String)
    (usage : Option Usage) :
    (addUsagePi acc model usage).userMessages = acc.userMessages := by
  unfold addUsagePi
  split
  · rfl
  · dsimp only
    split
    · split <;> rfl
    · rfl

/-- Every text collected from a Pi user turn's blocks is non-empty (the
`block.text` truthiness guard), given the initial collection is. -/
theorem piTexts_ne_empty (bs : List CBlock) (init : List String)
    (h : ∀ t ∈ init, t ≠ "") :
    ∀ t ∈ bs.foldl
        (fun (ts : List String) b =>
          if b.btype == "text" && truthyStr b.text then ts ++ [b.text.getD ""]
          else ts)
        init, t ≠ "" := by
  induction bs generalizing init with
  | nil => exact h
  | cons b rest ih =>
    apply ih
    intro t ht
    dsimp only at ht
    by_cases hg : (b.btype == "text" && truthyStr b.text) = true
    · rw [if_pos hg] at ht
      rcases List.mem_append.mp ht with h1 | h2
      · exact h t h1
      · rw [List.mem_singleton.mp h2]
        have htr : truthyStr b.text = true := (Bool.and_eq_true _ _ |>.mp hg).2
        cases hb : b.text with
        | none => rw [hb] at htr; cases htr
        | some v =>
          rw [hb] at htr
          simp only [truthyStr] at htr
          simpa [hb] using bne_iff_ne.mp htr
    · rw [if_neg hg] at ht; exact h t ht

/-- One Pi loop step either leaves `userMessages` unchanged or appends a
list of non-empty strings. -/
theorem stepPi_userMessages (acc : Acc) (msg : RawRecord) :
    (stepPi acc msg).userMessages = acc.userMessages ∨
    ∃ ts, (∀ t ∈ ts, t ≠ "") ∧
      (stepPi acc msg).userMessages = acc.userMessages ++ ts := by
  unfold stepPi
  split
  · exact Or.inl rfl
  · split
    · split
      · exact Or.inr ⟨_, piTexts_ne_empty _ _ (by intro t ht; cases ht), rfl⟩
      · exact Or.inl rfl
    · split
      · refine Or.inl ?_
        repeat' split
        all_goals
          simp [trackModelPi_userMessages, addUsagePi_userMessages]
      · exact Or.inl rfl

/-- Every string in the `userMessages` of a Pi loop fold is non-empty,
provided the initial accumulator satisfies the same. -/
theorem pi_fold_userMessages (msgs : List RawRecord) (acc : Acc)
    (h : ∀ m ∈ acc.userMessages, m ≠ "") :
    ∀ m ∈ (msgs.foldl stepPi acc).userMessages, m ≠ "" := by
  induction msgs generalizing acc with
  | nil => exact h
  | cons x xs ih =>
    apply ih
    rcases stepPi_userMessages acc x with heq | ⟨ts, hts, heq⟩
    · rw [heq]; exact h
    · rw [heq]
      intro m hm
      rcases List.mem_append.mp hm with h1 | h2
      · exact h m h1
      · exact hts m h2

/-- C6 (amended): in the Claude dialect every extracted user message is
non-blank (whitespace-only or absent text is dropped); in the Pi dialect
every extracted user message is non-empty (absent or empty text is dropped,
but whitespace-only text is kept). -/
theorem c6_userMessages (lines : List Line) (sid : Option String) (s : ParsedSession)
    (hp : parseSessionLines lines sid = some s) :
    (transcriptFormat lines = "claude" → ∀ m ∈ s.userMessages, strNonBlank m = true) ∧
    (transcriptFormat lines = "pi" → ∀ m ∈ s.userMessages, m ≠ "") := by
  rcases lines with _ | ⟨first, rest⟩
  · cases hp
  · dsimp only [parseSessionLines] at hp
    have hfmt : transcriptFormat (first :: rest) = detectSessionFormat first := rfl
    constructor
    · intro hcl
      rw [hfmt] at hcl
      rw [hcl] at hp
      norm_num at hp
      obtain ⟨f, r, hconv, -, -, -, hum, -⟩ := parseClaude_inv _ _ _ hp
      rw [hum]
      exact claude_fold_userMessages _ _ (by intro m hm; cases hm)
    · intro hpi
      rw [hfmt] at hpi
      rw [hpi] at hp
      norm_num at hp
      obtain ⟨sm, f, r, -, hconv, -, -, hum, -⟩ := parsePi_inv _ _ _ hp
      rw [hum]
      exact pi_fold_userMessages _ _ (by intro m hm; cases hm)

/-- Counterexample input for C6: a Pi transcript whose user turn carries a
whitespace-only text block. -/
def c6cexLines : List Line := [piSessionLine, piUserLine 10 " "]

/-- Counterexample for C6 as stated: the Pi dialect represents a
whitespace-only user text verbatim in the canonical record instead of
dropping it. -/
theorem c6_counterexample :
    (parseSessionLines c6cexLines none).map ParsedSession.userMessages = some [" "] ∧
    strNonBlank " " = false := by decide

/-- Witness lines for C6: a Claude transcript with one non-blank user turn. -/
def c6wLines : List Line := [userLine 1 "hello there"]

/-- The session parsed from the C6 witness lines. -/
def c6wSession : ParsedSession := (parseSessionLines c6wLines none).getD baseSession

/-- Witness for C6 at a concrete Claude transcript. -/
theorem c6_userMessages_witness :
    parseSessionLines c6wLines none = some c6wSession ∧
    ((transcriptFormat c6wLines = "claude" →
        ∀ m ∈ c6wSession.userMessages, strNonBlank m = true) ∧
     (transcriptFormat c6wLines = "pi" → ∀ m ∈ c6wSession.userMessages, m ≠ "")) :=
  ⟨by decide, c6_userMessages c6wLines none c6wSession (by decide)⟩

/-! ### C2 — malformed-line tolerance -/

/-- `Interleave xs ys zs`: `zs` is an order-preserving interleaving of `xs`
and `ys`. -/
inductive Interleave {a : Type} : List a → List a → List a → Prop where
  | nil : Interleave [] [] []
  | left {x : a} {xs ys zs : List a} :
      Interleave xs ys zs → Interleave (x :: xs) ys (x :: zs)
  | right {y : a} {xs ys zs : List a} :
      Interleave xs ys zs → Interleave xs (y :: ys) (y :: zs)

/-- Interleaved parse-failing lines vanish under per-line parsing. -/
theorem interleave_filterMap (valid malformed zs : List Line)
    (h : Interleave valid malformed zs) (hm : ∀ l ∈ malformed, l = none) :
    zs.filterMap id = valid.filterMap id := by
  induction h with
  | nil => rfl
  | @left x xs ys zs h ih =>
    have hm2 : ∀ l ∈ ys, l = none := hm
    rw [List.filterMap_cons, List.filterMap_cons, ih hm2]
  | @right y xs ys zs h ih =>
    have hy : y = none := hm y (List.mem_cons_self _ _)
    have hm2 : ∀ l ∈ ys, l = none := fun l hl => hm l (List.mem_cons_of_mem _ hl)
    rw [List.filterMap_cons, hy, ih hm2]
    rfl

/-- C2 (amended): interleaving any number of parse-failing lines into a
transcript leaves the parse result unchanged, provided the combined
transcript still starts with the original first line — the format detector
reads only the first line, so a malformed leading line rejects the whole
transcript. -/
theorem c2_malformedTolerance (valid malformed zs : List Line) (sid : Option String)
    (h : Interleave valid malformed zs)
    (hm : ∀ l ∈ malformed, l = none)
    (hh : zs.head? = valid.head?) :
    parseSessionLines zs sid = parseSessionLines valid sid := by
  have hfm := interleave_filterMap valid malformed zs h hm
  rcases valid with _ | ⟨v, vt⟩
  · have hz : zs = [] := by
      have : zs.head? = none := hh
      rwa [List.head?_eq_none_iff] at this
    rw [hz]
  · rcases zs with _ | ⟨z, zt⟩
    · cases hh
    · have hz : z = v := by simpa using hh
      subst hz
      dsimp only [parseSessionLines]
      by_cases hpi : (detectSessionFormat z == "pi") = true
      · rw [if_pos hpi, if_pos hpi]
        unfold parsePiSessionLines
        rw [hfm]
      · rw [if_neg hpi, if_neg hpi]
        by_cases hcl : (detectSessionFormat z == "claude") = true
        · rw [if_pos hcl, if_pos hcl]
          unfold parseClaudeSessionLines claudeConv
          rw [hfm]
        · rw [if_neg hcl, if_neg hcl]

/-- Counterexample for C2 as stated: one malformed line placed first makes
the whole transcript unparseable, while the same valid lines alone parse. -/
theorem c2_counterexample :
    parseSessionLines [none, userLine 1 "hi"] none = none ∧
    (parseSessionLines [userLine 1 "hi"] none).isSome = true := by decide

/-- Witness for C2 with a malformed line interleaved after the first line. -/
theorem c2_malformedTolerance_witness :
    (∀ l ∈ [(none : Line)], l = none) ∧
    ([userLine 1 "hi", none].head? = [userLine 1 "hi"].head?) ∧
    parseSessionLines [userLine 1 "hi", none] none
      = parseSessionLines [userLine 1 "hi"] none :=
  ⟨fun _ hl => List.mem_singleton.mp hl, rfl,
   c2_malformedTolerance [userLine 1 "hi"] [none] [userLine 1 "hi", none] none
     (Interleave.left (Interleave.right Interleave.nil))
     (fun _ hl => List.mem_singleton.mp hl) rfl⟩

/-! ### C3 — concrete scoring scenario and match attribution -/

/-- The user message of the C3 scenario (built without a literal apostrophe
character in source). -/
def emailMsg : String := "Let" ++ aposChar.toString ++ "s build an email filtering system"

/-- The session of the C3 scenario: sole user message `emailMsg`, sole tool
`Edit`, sole touched file `src/api/email.ts`. -/
def c3session : ParsedSession :=
  { baseSession with
    userMessages := [emailMsg]
    toolsUsed := ["Edit"]
    filesFromToolCalls := ["src/api/email.ts"] }

/-- Projection of a search result to its relevance and match attribution. -/
def resultRelAndMatched (r : SearchResult) : Option Int × Option (List String) :=
  (r.relevance, r.matchedOn)

/-- C3 evaluated on the code: the score is exactly 13 (10 for the user
message, 3 for the file path) and the scorer's local category list is
`["userMessages", "filesFromToolCalls"]`, but the returned search result
carries no attribution — `matchedOn` is computed and then discarded, so the
result's `matchedOn` is absent. -/
theorem c3_emailScenario :
    scoreRelevance c3session "email" = 13 ∧
    scoreRelevanceFull c3session "email" = (13, ["userMessages", "filesFromToolCalls"]) ∧
    (processSessionFiles [("p.jsonl", some c3session)] 0 { query := some "email" }).map
      resultRelAndMatched = [(some 13, none)] := by decide

/-! ### C1 — session-level token counters versus per-model sums -/

/-- The per-model input counter. -/
def mtInput (mt : MT) : Int := mt.input

/-- The per-model output counter. -/
def mtOutput (mt : MT) : Int := mt.output

/-- The per-model cache-creation counter. -/
def mtCacheCreation (mt : MT) : Int := mt.cacheCreation

/-- The per-model cache-read counter. -/
def mtCacheRead (mt : MT) : Int := mt.cacheRead

/-- Sum of one counter over all entries of the per-model mapping. -/
def mtSum (f : MT → Int) : List (String × MT) → Int
  | [] => 0
  | p :: rest => f p.2 + mtSum f rest

/-- Updating an absent key appends it: the sum gains the new value. -/
theorem mtSum_setMT_absent {f : MT → Int} {m : List (String × MT)} {k : String}
    {v : MT} (h : getMT m k = none) :
    mtSum f (setMT m k v) = mtSum f m + f v := by
  induction m with
  | nil => simp [setMT, mtSum]
  | cons p rest ih =>
    unfold getMT at h
    by_cases hk : (p.1 == k) = true
    · rw [if_pos hk] at h; cases h
    · rw [if_neg hk] at h
      show mtSum f (setMT (p :: rest) k v) = _
      obtain ⟨k1, v1⟩ := p
      simp only [setMT]
      simp only at hk
      rw [if_neg hk]
      simp [mtSum, ih h]
      ring

/-- Updating a present key replaces its first occurrence: the sum changes by
the difference. -/
theorem mtSum_setMT_present {f : MT → Int} {m : List (String × MT)} {k : String}
    {mt v : MT} (h : getMT m k = some mt) :
    mtSum f (setMT m k v) = mtSum f m + (f v - f mt) := by
  induction m with
  | nil => cases h
  | cons p rest ih =>
    unfold getMT at h
    obtain ⟨k1, v1⟩ := p
    by_cases hk : (k1 == k) = true
    · rw [if_pos hk] at h
      injection h with h
      subst h
      simp only [setMT]
      rw [if_pos hk]
      simp [mtSum]
      ring
    · rw [if_neg hk] at h
      simp only [setMT]
      rw [if_neg hk]
      simp [mtSum, ih h]
      ring

/-- After `setMT`, the key is present. -/
theorem getMT_setMT (m : List (String × MT)) (k : String) (v : MT) :
    getMT (setMT m k v) k = some v := by
  induction m with
  | nil => simp [setMT, getMT]
  | cons p rest ih =>
    obtain ⟨k1, v1⟩ := p
    by_cases hk : (k1 == k) = true
    · simp only [setMT]
      rw [if_pos hk]
      simp only [getMT]
      rw [if_pos hk]
    · simp only [setMT]
      rw [if_neg hk]
      simp only [getMT]
      rw [if_neg hk]
      exact ih

/-- The invariant relating session-level counters to the per-model sums. -/
def TokenInv (acc : Acc) : Prop :=
  acc.inputTokens = mtSum mtInput acc.modelTokens ∧
  acc.outputTokens = mtSum mtOutput acc.modelTokens ∧
  acc.cacheCreationTokens = mtSum mtCacheCreation acc.modelTokens ∧
  acc.cacheReadTokens = mtSum mtCacheRead acc.modelTokens

/-- From `(!a || b) = true` and `a = true`, conclude `b = true`. -/
theorem orNotImp {a b : Bool} (h : (!a || b) = true) (ha : a = true) : b = true := by
  rcases Bool.or_eq_true _ _ |>.mp h with h1 | h1
  · rw [ha] at h1; cases h1
  · exact h1

/-- Model tracking preserves the token invariant (a fresh bucket starts at
zero). -/
theorem trackModelClaude_tokenInv (acc : Acc) (model : Option String)
    (h : TokenInv acc) : TokenInv (trackModelClaude acc model) := by
  obtain ⟨h1, h2, h3, h4⟩ := h
  unfold trackModelClaude
  split
  · dsimp only
    split
    · exact ⟨h1, h2, h3, h4⟩
    · next hget =>
      refine ⟨?_, ?_, ?_, ?_⟩ <;> dsimp only <;>
        rw [mtSum_setMT_absent hget] <;>
        simp [mtInput, mtOutput, mtCacheCreation, mtCacheRead, h1, h2, h3, h4]
  · exact ⟨h1, h2, h3, h4⟩

/-- After model tracking, a truthy model has a bucket. -/
theorem trackModelClaude_bucket (acc : Acc) (model : Option String)
    (htr : truthyStr model = true) :
    (getMT (trackModelClaude acc model).modelTokens (model.getD "")).isSome = true := by
  unfold trackModelClaude
  rw [if_pos htr]
  dsimp only
  split
  · next mt hget => simp [hget]
  · simp [getMT_setMT]

/-- Usage accumulation preserves the token invariant when a usage-carrying
turn has a truthy model with an existing bucket. -/
theorem addUsageClaude_tokenInv (acc : Acc) (model : Option String)
    (usage : Option Usage) (h : TokenInv acc)
    (hgood : usage.isSome = true → truthyStr model = true)
    (hbucket : truthyStr model = true →
      (getMT acc.modelTokens (model.getD "")).isSome = true) :
    TokenInv (addUsageClaude acc model usage) := by
  obtain ⟨h1, h2, h3, h4⟩ := h
  unfold addUsageClaude
  split
  · exact ⟨h1, h2, h3, h4⟩
  · next u =>
    dsimp only
    split
    · next htr =>
      split
      · next mt hget =>
        refine ⟨?_, ?_, ?_, ?_⟩ <;> dsimp only <;>
          rw [mtSum_setMT_present hget] <;>
          simp [mtInput, mtOutput, mtCacheCreation, mtCacheRead, h1, h2, h3, h4]
      · next hget =>
        exfalso
        have := hbucket htr
        rw [hget] at this
        cases this
    · next htr =>
      exfalso
      exact htr (hgood rfl)

/-- The Claude goodness condition under which C1 holds: an assistant turn
carrying usage also carries a truthy model identifier. -/
def goodClaudeRec (r : RawRecord) : Bool :=
  if r.rtype == "assistant" then
    match r.message with
    | some m => !m.usage.isSome || truthyStr m.model
    | none => true
  else true

/-- One Claude loop step preserves the token invariant on good records. -/
theorem stepClaude_tokenInv (acc : Acc) (msg : RawRecord) (h : TokenInv acc)
    (hg : goodClaudeRec msg = true) : TokenInv (stepClaude acc msg) := by
  obtain ⟨h1, h2, h3, h4⟩ := h
  unfold stepClaude
  split
  · split
    · exact ⟨h1, h2, h3, h4⟩
    · split
      · split
        · exact ⟨h1, h2, h3, h4⟩
        · exact ⟨h1, h2, h3, h4⟩
      · exact ⟨h1, h2, h3, h4⟩
  · split
    · next hna hast =>
      split
      · exact ⟨h1, h2, h3, h4⟩
      · next m heqm =>
        have hgm : (!m.usage.isSome || truthyStr m.model) = true := by
          unfold goodClaudeRec at hg
          rw [if_pos hast, heqm] at hg
          exact hg
        have inv2 : TokenInv (addUsageClaude (trackModelClaude acc m.model)
            m.model m.usage) := by
          apply addUsageClaude_tokenInv _ _ _
            (trackModelClaude_tokenInv acc m.model ⟨h1, h2, h3, h4⟩)
            (fun hu => orNotImp hgm hu)
            (fun htr => trackModelClaude_bucket acc m.model htr)
        obtain ⟨g1, g2, g3, g4⟩ := inv2
        split
        · exact ⟨g1, g2, g3, g4⟩
        · exact ⟨g1, g2, g3, g4⟩
    · exact ⟨h1, h2, h3, h4⟩

/-- The Claude loop preserves the token invariant on good records. -/
theorem claude_fold_tokenInv (msgs : List RawRecord) (acc : Acc)
    (h : TokenInv acc) (hg : ∀ m ∈ msgs, goodClaudeRec m = true) :
    TokenInv (msgs.foldl stepClaude acc) := by
  induction msgs generalizing acc with
  | nil => exact h
  | cons x xs ih =>
    exact ih _
      (stepClaude_tokenInv acc x h (hg x (List.mem_cons_self _ _)))
      (fun m hm => hg m (List.mem_cons_of_mem _ hm))

/-- Pi model tracking preserves the token invariant. -/
theorem trackModelPi_tokenInv (acc : Acc) (model : Option String)
    (h : TokenInv acc) : TokenInv (trackModelPi acc model) := by
  obtain ⟨h1, h2, h3, h4⟩ := h
  unfold trackModelPi
  split
  · dsimp only
    split
    · exact ⟨h1, h2, h3, h4⟩
    · next hget =>
      refine ⟨?_, ?_, ?_, ?_⟩ <;> dsimp only <;>
        rw [mtSum_setMT_absent hget] <;>
        simp [mtInput, mtOutput, mtCacheCreation, mtCacheRead, h1, h2, h3, h4]
  · exact ⟨h1, h2, h3, h4⟩

/-- After Pi model tracking, a truthy model has a bucket. -/
theorem trackModelPi_bucket (acc : Acc) (model : Option String)
    (htr : truthyStr model = true) :
    (getMT (trackModelPi acc model).modelTokens (model.getD "")).isSome = true := by
  unfold trackModelPi
  rw [if_pos htr]
  dsimp only
  split
  · next mt hget => simp [hget]
  · simp [getMT_setMT]

/-- Pi usage accumulation preserves the token invariant when a usage-carrying
turn has a truthy model with an existing bucket. -/
theorem addUsagePi_tokenInv (acc : Acc) (model : Option String)
    (usage : Option Usage) (h : TokenInv acc)
    (hgood : usage.isSome = true → truthyStr model = true)
    (hbucket : truthyStr model = true →
      (getMT acc.modelTokens (model.getD "")).isSome = true) :
    TokenInv (addUsagePi acc model usage) := by
  obtain ⟨h1, h2, h3, h4⟩ := h
  unfold addUsagePi
  split
  · exact ⟨h1, h2, h3, h4⟩
  · next u =>
    dsimp only
    split
    · next htr =>
      split
      · next mt hget =>
        refine ⟨?_, ?_, ?_, ?_⟩ <;> dsimp only <;>
          rw [mtSum_setMT_present hget] <;>
          simp [mtInput, mtOutput, mtCacheCreation, mtCacheRead, h1, h2, h3, h4]
      · next hget =>
        exfalso
        have := hbucket htr
        rw [hget] at this
        cases this
    · next htr =>
      exfalso
      exact htr (hgood rfl)

/-- The Pi goodness condition under which C1 holds: an assistant turn whose
combined usage (top-level or message-level) is present also has a truthy
combined model identifier. -/
def goodPiRec (r : RawRecord) : Bool :=
  match r.message with
  | some m =>
    if m.role == "assistant" then
      !(if r.usage.isSome then r.usage else m.usage).isSome
        || truthyStr (jsOrOptStr r.model m.model)
    else true
  | none => true

/-- One Pi loop step preserves the token invariant on good records. -/
theorem stepPi_tokenInv (acc : Acc) (msg : RawRecord) (h : TokenInv acc)
    (hg : goodPiRec msg = true) : TokenInv (stepPi acc msg) := by
  obtain ⟨h1, h2, h3, h4⟩ := h
  unfold stepPi
  split
  · exact ⟨h1, h2, h3, h4⟩
  · next m heqm =>
    split
    · split
      · exact ⟨h1, h2, h3, h4⟩
      · exact ⟨h1, h2, h3, h4⟩
    · split
      · next hnu hast =>
        have hgm : (!(if msg.usage.isSome then msg.usage else m.usage).isSome
            || truthyStr (jsOrOptStr msg.model m.model)) = true := by
          unfold goodPiRec at hg
          rw [heqm] at hg
          dsimp only at hg
          rw [if_pos hast] at hg
          exact hg
        split
        · next hus =>
          rw [if_pos hus] at hgm
          have inv2 : TokenInv (addUsagePi
              (trackModelPi acc (jsOrOptStr msg.model m.model))
              (jsOrOptStr msg.model m.model) msg.usage) :=
            addUsagePi_tokenInv _ _ _
              (trackModelPi_tokenInv acc _ ⟨h1, h2, h3, h4⟩)
              (fun hu => orNotImp hgm hu)
              (fun htr => trackModelPi_bucket acc _ htr)
          obtain ⟨g1, g2, g3, g4⟩ := inv2
          split
          · exact ⟨g1, g2, g3, g4⟩
          · exact ⟨g1, g2, g3, g4⟩
        · next hus =>
          rw [if_neg hus] at hgm
          have inv2 : TokenInv (addUsagePi
              (trackModelPi acc (jsOrOptStr msg.model m.model))
              (jsOrOptStr msg.model m.model) m.usage) :=
            addUsagePi_tokenInv _ _ _
              (trackModelPi_tokenInv acc _ ⟨h1, h2, h3, h4⟩)
              (fun hu => orNotImp hgm hu)
              (fun htr => trackModelPi_bucket acc _ htr)
          obtain ⟨g1, g2, g3, g4⟩ := inv2
          split
          · exact ⟨g1, g2, g3, g4⟩
          · exact ⟨g1, g2, g3, g4⟩
      · exact ⟨h1, h2, h3, h4⟩

/-- The Pi loop preserves the token invariant on good records. -/
theorem pi_fold_tokenInv (msgs : List RawRecord) (acc : Acc)
    (h : TokenInv acc) (hg : ∀ m ∈ msgs, goodPiRec m = true) :
    TokenInv (msgs.foldl stepPi acc) := by
  induction msgs generalizing acc with
  | nil => exact h
  | cons x xs ih =>
    exact ih _
      (stepPi_tokenInv acc x h (hg x (List.mem_cons_self _ _)))
      (fun m hm => hg m (List.mem_cons_of_mem _ hm))

/-- The combined per-line goodness condition of the amended C1. -/
def goodLine (l : Line) : Bool :=
  match l with
  | none => true
  | some r => goodClaudeRec r && goodPiRec r

/-- C1 (amended): for every transcript in which each assistant turn carrying
usage also carries a (truthy) model identifier, each of the four
session-level token counters equals the sum of the corresponding counter
over the per-model mapping, in either dialect. -/
theorem c1_tokenCounters (lines : List Line) (sid : Option String) (s : ParsedSession)
    (hg : ∀ l ∈ lines, goodLine l = true)
    (hp : parseSessionLines lines sid = some s) :
    s.inputTokens = mtSum mtInput s.modelTokens ∧
    s.outputTokens = mtSum mtOutput s.modelTokens ∧
    s.cacheCreationTokens = mtSum mtCacheCreation s.modelTokens ∧
    s.cacheReadTokens = mtSum mtCacheRead s.modelTokens := by
  have hgood : ∀ r ∈ (lines.filterMap id), goodClaudeRec r = true ∧ goodPiRec r = true := by
    intro r hr
    rw [List.mem_filterMap] at hr
    obtain ⟨l, hl, hid⟩ := hr
    have := hg l hl
    cases l with
    | none => cases hid
    | some r2 =>
      cases hid
      exact Bool.and_eq_true _ _ |>.mp (by simpa [goodLine] using this)
  rcases lines with _ | ⟨first, rest⟩
  · cases hp
  · dsimp only [parseSessionLines] at hp
    by_cases hpi : (detectSessionFormat first == "pi") = true
    · rw [if_pos hpi] at hp
      obtain ⟨sm, f, r, -, -, -, -, -, hin, hout, hcc, hcr, hmt⟩ := parsePi_inv _ _ _ hp
      rw [hin, hout, hcc, hcr, hmt]
      exact pi_fold_tokenInv _ _ ⟨rfl, rfl, rfl, rfl⟩
        (fun m hm => (hgood m (List.mem_of_mem_filter hm)).2)
    · rw [if_neg hpi] at hp
      by_cases hcl : (detectSessionFormat first == "claude") = true
      · rw [if_pos hcl] at hp
        obtain ⟨f, r, hconv, -, -, -, -, hin, hout, hcc, hcr, hmt⟩ :=
          parseClaude_inv _ _ _ hp
        rw [hin, hout, hcc, hcr, hmt]
        apply claude_fold_tokenInv _ _ ⟨rfl, rfl, rfl, rfl⟩
        intro m hm
        rw [← hconv] at hm
        exact (hgood m (List.mem_of_mem_filter hm)).1
      · rw [if_neg hcl] at hp
        cases hp

/-- Check that all four session counters equal their per-model sums. -/
def checkTokenSums (s : ParsedSession) : Bool :=
  decide (s.inputTokens = mtSum mtInput s.modelTokens ∧
    s.outputTokens = mtSum mtOutput s.modelTokens ∧
    s.cacheCreationTokens = mtSum mtCacheCreation s.modelTokens ∧
    s.cacheReadTokens = mtSum mtCacheRead s.modelTokens)

/-- Counterexample for C1 as stated: an assistant turn carrying usage but no
model identifier adds to the session counters while no per-model bucket is
ever created, so the invariant fails on a transcript that parses fine. -/
theorem c1_counterexample :
    (parseSessionLines [userLine 1 "hi", assistantLine 2 none 5] none).map
      checkTokenSums = some false := by decide

/-- Witness lines for C1: every assistant turn carries a model. -/
def c1wLines : List Line := [userLine 1 "hi", assistantLine 2 (some "m1") 5]

/-- The session parsed from the C1 witness lines. -/
def c1wSession : ParsedSession := (parseSessionLines c1wLines none).getD baseSession

/-- Witness for C1 at a concrete well-formed Claude transcript. -/
theorem c1_tokenCounters_witness :
    (∀ l ∈ c1wLines, goodLine l = true) ∧
    parseSessionLines c1wLines none = some c1wSession ∧
    (c1wSession.inputTokens = mtSum mtInput c1wSession.modelTokens ∧
     c1wSession.outputTokens = mtSum mtOutput c1wSession.modelTokens ∧
     c1wSession.cacheCreationTokens = mtSum mtCacheCreation c1wSession.modelTokens ∧
     c1wSession.cacheReadTokens = mtSum mtCacheRead c1wSession.modelTokens) :=
  ⟨by decide, by decide, c1_tokenCounters c1wLines none c1wSession (by decide) (by decide)⟩

/-! ### C7 — file-path extraction from tool arguments -/

/-- Membership in a JavaScript-Set insertion. -/
theorem mem_addSet {xs : List String} {x s : String} :
    s ∈ addSet xs x ↔ s ∈ xs ∨ s = x := by
  unfold addSet
  split
  · next hc =>
    have hx : x ∈ xs := by simpa [List.contains] using hc
    constructor
    · exact Or.inl
    · rintro (h | rfl)
      · exact h
      · exact hx
  · simp

/-- The paths the spec-level traversal can reach: a string value under an
allow-listed key with a path separator, at this level or inside a nested
plain object.  There is deliberately no rule for arrays: the code never
descends into them. -/
inductive ReachesPath : List (String × JVal) → String → Prop where
  | here {fields : List (String × JVal)} {key s : String} :
      (key, JVal.jstr s) ∈ fields → key ∈ pathKeys → hasPathSep s = true →
      ReachesPath fields s
  | nested {fields : List (String × JVal)} {key s : String}
      {inner : List (String × JVal)} :
      (key, JVal.jobj inner) ∈ fields → ReachesPath inner s →
      ReachesPath fields s

/-- Nothing is reachable from an empty argument object. -/
theorem reach_nil (s : String) : ¬ ReachesPath [] s := by
  intro h
  cases h with
  | here hm _ _ => cases hm
  | nested hm _ => cases hm

/-- Unfolding of reachability over a cons cell. -/
theorem reach_cons {k : String} {v : JVal} {rest : List (String × JVal)}
    {s : String} :
    ReachesPath ((k, v) :: rest) s ↔
      (k ∈ pathKeys ∧ v = JVal.jstr s ∧ hasPathSep s = true) ∨
      (∃ inner, v = JVal.jobj inner ∧ ReachesPath inner s) ∨
      ReachesPath rest s := by
  constructor
  · intro h
    cases h with
    | here hm hk hs =>
      rcases List.mem_cons.mp hm with heq | hmem
      · obtain ⟨hk1, hv⟩ := Prod.mk.injEq .. |>.mp heq.symm
        exact Or.inl ⟨hk1 ▸ hk, hv, hs⟩
      · exact Or.inr (Or.inr (ReachesPath.here hmem hk hs))
    | nested hm hr =>
      rcases List.mem_cons.mp hm with heq | hmem
      · obtain ⟨hk1, hv⟩ := Prod.mk.injEq .. |>.mp heq.symm
        exact Or.inr (Or.inl ⟨_, hv, hr⟩)
      · exact Or.inr (Or.inr (ReachesPath.nested hmem hr))
  · rintro (⟨hk, rfl, hs⟩ | ⟨inner, rfl, hr⟩ | h)
    · exact ReachesPath.here (List.mem_cons_self _ _) hk hs
    · exact ReachesPath.nested (List.mem_cons_self _ _) hr
    · cases h with
      | here hm hk hs => exact ReachesPath.here (List.mem_cons_of_mem _ hm) hk hs
      | nested hm hr => exact ReachesPath.nested (List.mem_cons_of_mem _ hm) hr

/-- What one entry can contribute: a direct allow-listed path hit, or a path
reachable inside a nested plain object. -/
def EntryReach (key : String) (v : JVal) (s : String) : Prop :=
  (key ∈ pathKeys ∧ v = JVal.jstr s ∧ hasPathSep s = true) ∨
  (∃ inner, v = JVal.jobj inner ∧ ReachesPath inner s)

/-- Reachability over a cons cell decomposes entrywise. -/
theorem reach_cons_entry {k : String} {v : JVal} {rest : List (String × JVal)}
    {s : String} :
    ReachesPath ((k, v) :: rest) s ↔ EntryReach k v s ∨ ReachesPath rest s := by
  rw [reach_cons]
  unfold EntryReach
  exact or_assoc.symm

mutual
/-- Membership in one entry's extraction result. -/
theorem mem_extractEntry (key : String) (v : JVal) (files : List String)
    (s : String) :
    s ∈ extractEntry key v files ↔ (s ∈ files ∨ EntryReach key v s) := by
  cases v with
  | jstr w =>
    rw [extractEntry.eq_def]
    dsimp only
    by_cases hck : pathKeys.contains key = true
    · rw [if_pos hck]
      have hkmem : key ∈ pathKeys := by simpa [List.contains] using hck
      by_cases hsep : hasPathSep w = true
      · rw [if_pos hsep]
        rw [mem_addSet]
        unfold EntryReach
        constructor
        · rintro (hm | rfl)
          · exact Or.inl hm
          · exact Or.inr (Or.inl ⟨hkmem, rfl, hsep⟩)
        · rintro (hm | ⟨-, heq, hs⟩ | ⟨inner, heq, -⟩)
          · exact Or.inl hm
          · injection heq with heq
            exact Or.inr heq.symm
          · cases heq
      · rw [if_neg hsep]
        unfold EntryReach
        constructor
        · exact Or.inl
        · rintro (hm | ⟨-, heq, hs⟩ | ⟨inner, heq, -⟩)
          · exact hm
          · injection heq with heq
            rw [← heq] at hs
            exact absurd hs hsep
          · cases heq
    · rw [if_neg hck]
      have hknmem : key ∉ pathKeys := fun hk =>
        hck (by simpa [List.contains] using hk)
      unfold EntryReach
      constructor
      · exact Or.inl
      · rintro (hm | ⟨hk, -, -⟩ | ⟨inner, heq, -⟩)
        · exact hm
        · exact absurd hk hknmem
        · cases heq
  | jobj inner =>
    rw [extractEntry.eq_def]
    dsimp only
    rw [ite_self, mem_extractFilePaths inner files s]
    unfold EntryReach
    constructor
    · rintro (hm | hr)
      · exact Or.inl hm
      · exact Or.inr (Or.inr ⟨inner, rfl, hr⟩)
    · rintro (hm | ⟨-, heq, -⟩ | ⟨inner2, heq, hr⟩)
      · exact Or.inl hm
      · cases heq
      · injection heq with heq
        exact Or.inr (heq ▸ hr)
  | jnum n =>
    rw [extractEntry.eq_def]
    dsimp only
    rw [ite_self]
    unfold EntryReach
    exact ⟨Or.inl, fun h => by
      rcases h with hm | ⟨-, heq, -⟩ | ⟨inner, heq, -⟩
      · exact hm
      · cases heq
      · cases heq⟩
  | jbool b =>
    rw [extractEntry.eq_def]
    dsimp only
    rw [ite_self]
    unfold EntryReach
    exact ⟨Or.inl, fun h => by
      rcases h with hm | ⟨-, heq, -⟩ | ⟨inner, heq, -⟩
      · exact hm
      · cases heq
      · cases heq⟩
  | jnull =>
    rw [extractEntry.eq_def]
    dsimp only
    rw [ite_self]
    unfold EntryReach
    exact ⟨Or.inl, fun h => by
      rcases h with hm | ⟨-, heq, -⟩ | ⟨inner, heq, -⟩
      · exact hm
      · cases heq
      · cases heq⟩
  | jarr elems =>
    rw [extractEntry.eq_def]
    dsimp only
    rw [ite_self]
    unfold EntryReach
    exact ⟨Or.inl, fun h => by
      rcases h with hm | ⟨-, heq, -⟩ | ⟨inner, heq, -⟩
      · exact hm
      · cases heq
      · cases heq⟩

/-- Membership in the extracted file-path set: exactly the already-present
strings plus the reachable paths. -/
theorem mem_extractFilePaths (fields : List (String × JVal)) (acc : List String)
    (s : String) :
    s ∈ extractFilePaths fields acc ↔ (s ∈ acc ∨ ReachesPath fields s) := by
  match fields with
  | [] =>
    rw [extractFilePaths]
    exact ⟨Or.inl, fun h => h.elim id (fun h2 => absurd h2 (reach_nil s))⟩
  | (key, value) :: rest =>
    rw [extractFilePaths]
    rw [mem_extractFilePaths rest (extractEntry key value acc) s]
    rw [mem_extractEntry key value acc s]
    rw [reach_cons_entry]
    tauto
end

/-- C7 (amended): a string is in the extracted file-path set exactly when it
was already present or is reachable as an allow-listed path-separator-bearing
string value through a chain of nested plain objects; arrays are never
traversed, so a value of array type contributes nothing — not even objects
nested inside it. -/
theorem c7_filePathExtraction :
    (∀ (fields : List (String × JVal)) (acc : List String) (s : String),
      s ∈ extractFilePaths fields acc ↔ (s ∈ acc ∨ ReachesPath fields s)) ∧
    (∀ (key : String) (elems : List JVal) (acc : List String),
      extractFilePaths [(key, JVal.jarr elems)] acc = acc) := by
  constructor
  · exact mem_extractFilePaths
  · intro key elems acc
    rw [extractFilePaths, extractFilePaths, extractEntry.eq_def]
    dsimp only
    rw [ite_self]

/-- Counterexample for C7 as stated: an allow-listed path inside an object
nested within an array is not extracted, although the claim says the
traversal re-enters nested objects found inside arrays. -/
theorem c7_counterexample :
    extractFilePaths
        [("edits", JVal.jarr [JVal.jobj [("file_path", JVal.jstr "a/b")]])] [] = [] ∧
    "file_path" ∈ pathKeys ∧ hasPathSep "a/b" = true := by decide

/-! ### C5 — flat result list: sort, stability, truncation, default limit -/

/-- The comparator's order as a total preorder on results whose relevance is
present: higher score first, later end time as tie-break. -/
def leKey (a b : SearchResult) : Bool :=
  if a.relevance.getD 0 = b.relevance.getD 0 then b.endedAt ≤ a.endedAt
  else b.relevance.getD 0 < a.relevance.getD 0

/-- Propositional reading of `leKey`. -/
theorem leKey_iff {a b : SearchResult} :
    leKey a b = true ↔
      (b.relevance.getD 0 < a.relevance.getD 0 ∨
        (a.relevance.getD 0 = b.relevance.getD 0 ∧ b.endedAt ≤ a.endedAt)) := by
  unfold leKey
  by_cases h : a.relevance.getD 0 = b.relevance.getD 0
  · rw [if_pos h]
    simp [h]
  · rw [if_neg h]
    simp [h]

/-- `leKey` is transitive. -/
theorem leKey_trans (a b c : SearchResult) (hab : leKey a b) (hbc : leKey b c) :
    leKey a c := by
  rw [leKey_iff] at *
  rcases hab with h1 | ⟨h1, h2⟩ <;> rcases hbc with h3 | ⟨h3, h4⟩ <;>
    first
    | (left; omega)
    | (right; constructor <;> omega)

/-- `leKey` is total. -/
theorem leKey_total (a b : SearchResult) : leKey a b || leKey b a := by
  rw [Bool.or_eq_true, leKey_iff, leKey_iff]
  omega

/-- On results that carry a relevance value, the source comparator's
placement relation agrees with `leKey`. -/
theorem resultLE_eq_leKey {a b : SearchResult}
    (ha : a.relevance.isSome = true) (hb : b.relevance.isSome = true) :
    resultLE a b = leKey a b := by
  obtain ⟨x, hx⟩ := Option.isSome_iff_exists.mp ha
  obtain ⟨y, hy⟩ := Option.isSome_iff_exists.mp hb
  unfold resultLE compareResults leKey
  rw [hx, hy]
  by_cases hxy : x = y
  · subst hxy
    simp
  · have hne : (some x != some y) = true := by simpa using hxy
    rw [if_pos hne]
    simp only [Option.getD_some]
    rw [if_neg hxy]
    rw [decide_eq_decide]
    omega

/-- `List.merge` depends on the order relation only on pairs drawn from the
two lists. -/
theorem merge_congr {α : Type} (le1 le2 : α → α → Bool) :
    ∀ (xs ys : List α), (∀ a ∈ xs, ∀ b ∈ ys, le1 a b = le2 a b) →
      List.merge xs ys le1 = List.merge xs ys le2 := by
  intro xs
  induction xs with
  | nil => intro ys h; simp
  | cons x xs ihx =>
    intro ys
    induction ys with
    | nil => intro h; simp
    | cons y ys ihy =>
      intro h
      rw [List.cons_merge_cons, List.cons_merge_cons]
      rw [h x (List.mem_cons_self _ _) y (List.mem_cons_self _ _)]
      split
      · rw [ihx (y :: ys) (fun a ha b hb => h a (List.mem_cons_of_mem _ ha) b hb)]
      · rw [ihy (fun a ha b hb => h a ha b (List.mem_cons_of_mem _ hb))]

/-- `List.mergeSort` depends on the order relation only on pairs drawn from
the list. -/
theorem mergeSort_congr {α : Type} (le1 le2 : α → α → Bool) :
    ∀ (l : List α), (∀ a ∈ l, ∀ b ∈ l, le1 a b = le2 a b) →
      l.mergeSort le1 = l.mergeSort le2
  | [], _ => by simp
  | [a], _ => by simp
  | a :: b :: xs, h => by
    have hl1 : (List.splitInTwo ⟨a :: b :: xs, rfl⟩).1.1.length < xs.length + 1 + 1 := by
      simp [List.splitInTwo_fst]; omega
    have hl2 : (List.splitInTwo ⟨a :: b :: xs, rfl⟩).2.1.length < xs.length + 1 + 1 := by
      simp [List.splitInTwo_snd]; omega
    have hm1 : ∀ x ∈ (List.splitInTwo ⟨a :: b :: xs, rfl⟩).1.1, x ∈ a :: b :: xs := by
      intro x hx
      rw [List.splitInTwo_fst] at hx
      exact List.mem_of_mem_take hx
    have hm2 : ∀ x ∈ (List.splitInTwo ⟨a :: b :: xs, rfl⟩).2.1, x ∈ a :: b :: xs := by
      intro x hx
      rw [List.splitInTwo_snd] at hx
      exact List.mem_of_mem_drop hx
    simp only [List.mergeSort]
    rw [mergeSort_congr le1 le2 (List.splitInTwo ⟨a :: b :: xs, rfl⟩).1.1
        (fun p hp q hq => h p (hm1 p hp) q (hm1 q hq))]
    rw [mergeSort_congr le1 le2 (List.splitInTwo ⟨a :: b :: xs, rfl⟩).2.1
        (fun p hp q hq => h p (hm2 p hp) q (hm2 q hq))]
    apply merge_congr
    intro p hp q hq
    rw [List.mem_mergeSort] at hp hq
    exact h p (hm1 p hp) q (hm2 q hq)
termination_by l => l.length

/-- C5 (amended): over surviving candidates (which always carry a relevance
value), the output is the flat input list permuted into descending order by
score with descending `endedAt` as tie-break, stably (candidates with equal
score and equal end time keep their input order), then truncated to the
requested limit; an absent limit — and likewise a limit of 0, which the
`options.limit || 20` default treats as absent — yields 20. -/
theorem c5_searchOrdering (results : List SearchResult) (options : SearchOptions)
    (h : results.all (fun r => r.relevance.isSome) = true) :
    (sortResults results).Pairwise (fun a b => resultLE a b = true) ∧
    List.Perm (sortResults results) results ∧
    (∀ a b : SearchResult, a.relevance = b.relevance → a.endedAt = b.endedAt →
      List.Sublist [a, b] results → List.Sublist [a, b] (sortResults results)) ∧
    sortAndLimit results options = (sortResults results).take (jsLimit options.limit) ∧
    (sortAndLimit results options).length = min (jsLimit options.limit) results.length ∧
    jsLimit none = 20 := by
  have hsome : ∀ r ∈ results, r.relevance.isSome = true := by
    intro r hr
    exact List.all_eq_true.mp h r hr
  have hcong : results.mergeSort resultLE = results.mergeSort leKey :=
    mergeSort_congr _ _ results
      (fun a ha b hb => resultLE_eq_leKey (hsome a ha) (hsome b hb))
  refine ⟨?_, ?_, ?_, rfl, ?_, rfl⟩
  · have hp : (results.mergeSort leKey).Pairwise (fun a b => leKey a b = true) :=
      List.sorted_mergeSort (fun a b c => leKey_trans a b c) leKey_total results
    unfold sortResults
    rw [hcong]
    apply List.Pairwise.imp_of_mem ?_ hp
    intro a b ha hb hk
    rw [List.mem_mergeSort] at ha hb
    rw [resultLE_eq_leKey (hsome a ha) (hsome b hb)]
    exact hk
  · exact List.mergeSort_perm results resultLE
  · intro a b hrel hend hsub
    unfold sortResults
    rw [hcong]
    apply List.pair_sublist_mergeSort (fun a b c => leKey_trans a b c) leKey_total
    · rw [leKey_iff]
      right
      rw [hrel, hend]
      exact ⟨rfl, le_refl _⟩
    · exact hsub
  · unfold sortAndLimit
    rw [List.length_take]
    unfold sortResults
    rw [List.length_mergeSort]

/-- A concrete surviving search result. -/
def c5r0 : SearchResult :=
  { toParsedSession := baseSession, relevance := some 1, matchedOn := none
    transcriptPath := "p" }

/-- Counterexample for C5 as stated: with a requested limit of 0, the output
is not truncated to 0 results — the `options.limit || 20` default treats 0 as
absent and returns up to 20. -/
theorem c5_counterexample :
    sortAndLimit [c5r0] { limit := some 0 } = [c5r0] ∧
    (sortAndLimit [c5r0] { limit := some 0 }).length ≠ 0 := by
  constructor
  · simp [sortAndLimit, sortResults, jsLimit]
  · simp [sortAndLimit, sortResults, jsLimit]

/-- Witness for C5 at a concrete one-element candidate list. -/
theorem c5_searchOrdering_witness :
    ([c5r0].all (fun r => r.relevance.isSome) = true) ∧
    ((sortResults [c5r0]).Pairwise (fun a b => resultLE a b = true) ∧
     List.Perm (sortResults [c5r0]) [c5r0] ∧
     (∀ a b : SearchResult, a.relevance = b.relevance → a.endedAt = b.endedAt →
       List.Sublist [a, b] [c5r0] → List.Sublist [a, b] (sortResults [c5r0])) ∧
     sortAndLimit [c5r0] {} = (sortResults [c5r0]).take (jsLimit (SearchOptions.limit {})) ∧
     (sortAndLimit [c5r0] {}).length = min (jsLimit (SearchOptions.limit {})) [c5r0].length ∧
     jsLimit none = 20) :=
  ⟨by decide, c5_searchOrdering [c5r0] {} (by decide)⟩

end Kuato
